import Mathlib

/-!
Verification of the document ingestion and two-stage retrieval pipeline of the
voice-interview-bot repository.  The backend pipeline (chunker, fingerprinter,
ingestion, retrieval orchestrator, document store) is embedded from the
specification; the frontend API client types are embedded from
src/frontend/lib/api.ts.
-/

namespace VoiceBot

/-! ### Chunker (§4.2) -/

/-- Modelled from the spec: the Chunker's window loop (the chunker source is not
in the repository snapshot).  Windows start at `offset = 0` and advance by
`step`; each window is `text[offset : offset + size]`; the loop stops once a
window reaches the end of the text.  `fuel` bounds the recursion; `chunk`
supplies enough fuel for every input with `step > 0`. -/
def chunkGo (text : List Char) (size step offset fuel : Nat) : List (List Char) :=
  if text.length ≤ offset + size then
    [(text.drop offset).take size]
  else
    match fuel with
    | 0 => [(text.drop offset).take size]
    | fuel' + 1 => (text.drop offset).take size :: chunkGo text size step (offset + step) fuel'

/-- Modelled from the spec: `chunk(text, chunk_size, overlap)` produces the
ordered sequence of overlapping windows with `step = chunk_size - overlap`,
clipped to the document length, with no empty trailing chunk. -/
def chunk (text : List Char) (size overlap : Nat) : List (List Char) :=
  if text.isEmpty then [] else chunkGo text size (size - overlap) 0 text.length

/-- Concatenate a chunk sequence after removing the first `overlap` characters
of every chunk but the first (the reconstruction operation of §8). -/
def reassemble (overlap : Nat) : List (List Char) → List Char
  | [] => []
  | c :: cs => c ++ (cs.map (fun d => d.drop overlap)).flatten

theorem chunkGo_stop (text : List Char) (size step offset fuel : Nat)
    (h : text.length ≤ offset + size) :
    chunkGo text size step offset fuel = [(text.drop offset).take size] := by
  unfold chunkGo
  rw [if_pos h]

theorem chunkGo_step (text : List Char) (size step offset fuel : Nat)
    (h : ¬ text.length ≤ offset + size) :
    chunkGo text size step offset (fuel + 1) =
      (text.drop offset).take size :: chunkGo text size step (offset + step) fuel := by
  conv_lhs => unfold chunkGo
  rw [if_neg h]

theorem chunkGo_cons (text : List Char) (size step offset fuel : Nat) :
    ∃ cs, chunkGo text size step offset fuel = (text.drop offset).take size :: cs := by
  unfold chunkGo
  split
  · exact ⟨[], rfl⟩
  · match fuel with
    | 0 => exact ⟨[], rfl⟩
    | fuel' + 1 => exact ⟨_, rfl⟩

theorem reassemble_chunkGo (text : List Char) (size overlap step : Nat)
    (hov : overlap < size) (hstep : step = size - overlap) :
    ∀ fuel offset, text.length ≤ offset + size + fuel * step →
      reassemble overlap (chunkGo text size step offset fuel) = text.drop offset := by
  intro fuel
  induction fuel with
  | zero =>
    intro offset h
    rw [Nat.zero_mul, Nat.add_zero] at h
    rw [chunkGo_stop text size step offset 0 h, reassemble]
    simp only [List.map_nil, List.flatten_nil, List.append_nil]
    exact List.take_of_length_le (by simp; omega)
  | succ n ih =>
    intro offset h
    by_cases hstop : text.length ≤ offset + size
    · rw [chunkGo_stop text size step offset (n + 1) hstop, reassemble]
      simp only [List.map_nil, List.flatten_nil, List.append_nil]
      exact List.take_of_length_le (by simp; omega)
    · rw [chunkGo_step text size step offset n hstop]
      obtain ⟨cs, hcs⟩ := chunkGo_cons text size step (offset + step) n
      have ihh := ih (offset + step) (by rw [Nat.succ_mul] at h; omega)
      rw [hcs] at ihh ⊢
      rw [reassemble] at ihh ⊢
      simp only [List.map_cons, List.flatten_cons] at *
      -- the head of the tail is long enough to absorb the overlap
      have hlen : overlap ≤ ((text.drop (offset + step)).take size).length := by
        simp only [List.length_take, List.length_drop]
        omega
      rw [← List.drop_append_of_le_length hlen, ihh, List.drop_drop]
      have hsum : offset + step + overlap = offset + size := by omega
      rw [hsum, ← List.drop_drop, List.take_append_drop]

/-- C4: for `chunk_size > overlap ≥ 0`, `chunk` is deterministic (two
invocations on the same arguments give the same chunk sequence), and
concatenating the chunks after removing the overlapping leading characters of
every non-first chunk reconstructs the original text exactly. -/
theorem chunk_deterministic_reconstructs (text : List Char) (size overlap : Nat)
    (h : overlap < size) :
    chunk text size overlap = chunk text size overlap ∧
      reassemble overlap (chunk text size overlap) = text := by
  refine ⟨rfl, ?_⟩
  unfold chunk
  by_cases he : text.isEmpty
  · rw [if_pos he, reassemble]
    exact (List.isEmpty_iff.mp he).symm
  · rw [if_neg he]
    have hfuel : text.length ≤ 0 + size + text.length * (size - overlap) := by
      have h1 : text.length * 1 ≤ text.length * (size - overlap) :=
        Nat.mul_le_mul_left _ (by omega)
      omega
    have := reassemble_chunkGo text size overlap (size - overlap) h rfl
      text.length 0 hfuel
    rwa [List.drop_zero] at this

theorem chunk_deterministic_reconstructs_witness :
    (1 : Nat) < 2 ∧
      (chunk ['a', 'b', 'c'] 2 1 = chunk ['a', 'b', 'c'] 2 1 ∧
        reassemble 1 (chunk ['a', 'b', 'c'] 2 1) = ['a', 'b', 'c']) :=
  ⟨by decide, chunk_deterministic_reconstructs ['a', 'b', 'c'] 2 1 (by decide)⟩

/-- C3: on any text of exactly 4300 characters, `chunk text 2000 300` produces
exactly the three windows at offsets 0, 1700 and 3400, whose lengths are
2000, 2000 and 900, so `total_chunks = 3`. -/
theorem chunk_worked_example (text : List Char) (h : text.length = 4300) :
    chunk text 2000 300 =
        [text.take 2000, (text.drop 1700).take 2000, (text.drop 3400).take 2000] ∧
      (chunk text 2000 300).map List.length = [2000, 2000, 900] ∧
      (chunk text 2000 300).length = 3 := by
  have hne : text.isEmpty = false := by
    rw [List.isEmpty_eq_false]
    intro hnil
    rw [hnil] at h
    simp at h
  have e0 : chunk text 2000 300 = chunkGo text 2000 1700 0 4300 := by
    unfold chunk
    rw [hne, h]
    norm_num
  have e1 : chunkGo text 2000 1700 0 4300 =
      (text.drop 0).take 2000 :: chunkGo text 2000 1700 (0 + 1700) 4299 :=
    chunkGo_step text 2000 1700 0 4299 (by omega)
  have e2 : chunkGo text 2000 1700 (0 + 1700) 4299 =
      (text.drop (0 + 1700)).take 2000 ::
        chunkGo text 2000 1700 (0 + 1700 + 1700) 4298 :=
    chunkGo_step text 2000 1700 (0 + 1700) 4298 (by omega)
  have e3 : chunkGo text 2000 1700 (0 + 1700 + 1700) 4298 =
      [(text.drop (0 + 1700 + 1700)).take 2000] :=
    chunkGo_stop text 2000 1700 (0 + 1700 + 1700) 4298 (by omega)
  have e : chunk text 2000 300 =
      [text.take 2000, (text.drop 1700).take 2000, (text.drop 3400).take 2000] := by
    rw [e0, e1, e2, e3]
    norm_num
  refine ⟨e, ?_, ?_⟩
  · rw [e]
    simp only [List.map_cons, List.map_nil, List.length_take, List.length_drop, h]
    decide
  · rw [e]
    rfl

theorem chunk_worked_example_witness :
    (List.replicate 4300 'a').length = 4300 ∧
      (chunk (List.replicate 4300 'a') 2000 300 =
          [(List.replicate 4300 'a').take 2000,
            ((List.replicate 4300 'a').drop 1700).take 2000,
            ((List.replicate 4300 'a').drop 3400).take 2000] ∧
        (chunk (List.replicate 4300 'a') 2000 300).map List.length = [2000, 2000, 900] ∧
        (chunk (List.replicate 4300 'a') 2000 300).length = 3) :=
  ⟨by rw [List.length_replicate],
    chunk_worked_example (List.replicate 4300 'a') (by rw [List.length_replicate])⟩

/-! ### Vector Index records and similarity ranking (§3, §4.4) -/

/-- Modelled from the spec: a Vector Index entry, carrying the metadata
`document_id`, `chunk_number`, `text`, `title`, `is_interview` alongside the
embedding vector (§6, persisted state layout). -/
structure VectorRecord where
  document_id : Nat
  chunk_number : Nat
  text : List Char
  title : List Char
  is_interview : Bool
  vector : List Int
deriving DecidableEq

/-- Dot-product similarity between two embedding vectors (the concrete
similarity function is external; a linear score suffices for the model). -/
def dot : List Int → List Int → Int
  | a :: as, b :: bs => a * b + dot as bs
  | _, _ => 0

/-- Similarity score of a record against the query embedding. -/
def score (qv : List Int) (r : VectorRecord) : Int := dot qv r.vector

/-- Modelled from the spec: the Stage-3 ordering — descending score, ties
broken by ascending `chunk_number`, then ascending `document_id` (§4.4). -/
def rank (qv : List Int) (a b : VectorRecord) : Prop :=
  score qv b < score qv a ∨
    (score qv a = score qv b ∧
      (a.chunk_number < b.chunk_number ∨
        (a.chunk_number = b.chunk_number ∧ a.document_id ≤ b.document_id)))

instance (qv : List Int) : DecidableRel (rank qv) := fun a b => by
  unfold rank
  infer_instance

theorem rank_total (qv : List Int) : ∀ a b, rank qv a b ∨ rank qv b a := by
  intro a b
  unfold rank
  omega

theorem rank_trans (qv : List Int) : ∀ a b c, rank qv a b → rank qv b c → rank qv a c := by
  intro a b c
  unfold rank
  omega

/-- Two records differ in their `(document_id, chunk_number)` pair. -/
def keyDistinct (a b : VectorRecord) : Prop :=
  a.document_id ≠ b.document_id ∨ a.chunk_number ≠ b.chunk_number

instance : DecidableRel keyDistinct := fun a b => by
  unfold keyDistinct
  infer_instance

theorem keyDistinct_symm : ∀ {a b : VectorRecord}, keyDistinct a b → keyDistinct b a := by
  intro a b h
  unfold keyDistinct at *
  omega

/-! ### Retrieval Orchestrator (§4.4) -/

/-- The retrieval scope: all documents, interview-flagged documents, or one
specific document id (§4.4). -/
inductive Scope
  | all
  | interview
  | doc (id : Nat)
deriving DecidableEq

/-- Which Vector Index records fall inside a scope. -/
def scopePred : Scope → VectorRecord → Bool
  | .all, _ => true
  | .interview, r => r.is_interview
  | .doc id, r => r.document_id == id

/-- Modelled from the spec: Stage 1 — similarity search over the scope,
returning the top-K (K = 3) highest-scoring hits, ordered deterministically by
the ranking relation. -/
def stage1 (qv : List Int) (scope : Scope) (index : List VectorRecord) :
    List VectorRecord :=
  ((index.filter (scopePred scope)).insertionSort (rank qv)).take 3

/-- Order-preserving removal of duplicates (first occurrences kept). -/
def dedupFirstAux (seen : List Nat) : List Nat → List Nat
  | [] => []
  | a :: l => if a ∈ seen then dedupFirstAux seen l else a :: dedupFirstAux (a :: seen) l

/-- The distinct `document_id`s of the Stage-1 hits, order-preserving. -/
def dedupFirst (l : List Nat) : List Nat := dedupFirstAux [] l

/-- All chunks of document `d` held by the Vector Index. -/
def chunksOf (index : List VectorRecord) (d : Nat) : List VectorRecord :=
  index.filter (fun r => r.document_id == d)

/-- The Stage-1 hits that belong to document `d`. -/
def hitsOf (hits : List VectorRecord) (d : Nat) : List VectorRecord :=
  hits.filter (fun r => r.document_id == d)

/-- Modelled from the spec: the per-document truncated expansion used when the
safety cap is exceeded — the document keeps its Stage-1 hits and fills the
remainder of its proportional quota with its other chunks (§4.4 edge cases). -/
def truncBlock (index hits : List VectorRecord) (cap total d : Nat) :
    List VectorRecord :=
  hitsOf hits d ++
    ((chunksOf index d).filter
        (fun r => (hitsOf hits d).all fun hh => !(hh.chunk_number == r.chunk_number))).take
      (cap * (chunksOf index d).length / total - (hitsOf hits d).length)

/-- Modelled from the spec: Stage 2 — collect the distinct `document_id`s of
the Stage-1 hits (order-preserving), fetch every chunk of those documents, and
truncate per document proportionally if the safety cap would be exceeded,
preserving the Stage-1 hits of each contributing document. -/
def stage2 (index hits : List VectorRecord) (cap : Nat) : List VectorRecord :=
  if ((dedupFirst (hits.map (·.document_id))).map (chunksOf index)).flatten.length ≤ cap then
    ((dedupFirst (hits.map (·.document_id))).map (chunksOf index)).flatten
  else
    ((dedupFirst (hits.map (·.document_id))).map
        (truncBlock index hits cap
          ((dedupFirst (hits.map (·.document_id))).map (chunksOf index)).flatten.length)).flatten

/-- Modelled from the spec: Stage 3 — re-rank the expanded pool against the
query embedding and select the top-N (N = 5). -/
def stage3 (qv : List Int) (pool : List VectorRecord) : List VectorRecord :=
  (pool.insertionSort (rank qv)).take 5

/-- Modelled from the spec: `retrieve(query_text, scope)` — embed the query,
run Stage 1, short-circuit on zero hits, else expand (Stage 2) and re-rank
(Stage 3).  `cap` is the Stage-2 safety cap. -/
def retrieve (embed : List Char → List Int) (index : List VectorRecord)
    (query : List Char) (scope : Scope) (cap : Nat) : List VectorRecord :=
  if (stage1 (embed query) scope index).isEmpty then []
  else stage3 (embed query) (stage2 index (stage1 (embed query) scope index) cap)

theorem mem_dedupFirstAux {seen l x} :
    x ∈ dedupFirstAux seen l ↔ x ∈ l ∧ x ∉ seen := by
  induction l generalizing seen with
  | nil => simp [dedupFirstAux]
  | cons a l ih =>
    unfold dedupFirstAux
    by_cases ha : a ∈ seen
    · rw [if_pos ha, ih]
      simp only [List.mem_cons]
      constructor
      · rintro ⟨h1, h2⟩
        exact ⟨Or.inr h1, h2⟩
      · rintro ⟨h1 | h1, h2⟩
        · exact absurd ha (h1 ▸ h2)
        · exact ⟨h1, h2⟩
    · rw [if_neg ha]
      simp only [List.mem_cons, ih, List.mem_cons]
      constructor
      · rintro (rfl | ⟨h1, h2⟩)
        · exact ⟨Or.inl rfl, ha⟩
        · exact ⟨Or.inr h1, fun hs => h2 (Or.inr hs)⟩
      · rintro ⟨rfl | h1, h2⟩
        · exact Or.inl rfl
        · by_cases hx : x = a
          · exact Or.inl hx
          · exact Or.inr ⟨h1, fun hs => by
              rcases hs with h | h
              · exact hx h
              · exact h2 h⟩

theorem mem_dedupFirst {l x} : x ∈ dedupFirst l ↔ x ∈ l := by
  rw [dedupFirst, mem_dedupFirstAux]
  simp

theorem stage1_subset_index (qv : List Int) (scope : Scope)
    (index : List VectorRecord) :
    ∀ r ∈ stage1 qv scope index, r ∈ index := by
  intro r hr
  have h1 : r ∈ (index.filter (scopePred scope)).insertionSort (rank qv) :=
    List.mem_of_mem_take hr
  rw [List.mem_insertionSort] at h1
  exact List.mem_of_mem_filter h1

/-- C1: every Stage-1 top-K hit appears in the Stage-2 expanded candidate pool
used by `retrieve`, for every query embedding, scope, index and safety cap —
including when the cap forces per-document truncation of the expansion. -/
theorem stage1_subset_stage2 (qv : List Int) (scope : Scope)
    (index : List VectorRecord) (cap : Nat) (r : VectorRecord)
    (hr : r ∈ stage1 qv scope index) :
    r ∈ stage2 index (stage1 qv scope index) cap := by
  have hidx : r ∈ index := stage1_subset_index qv scope index r hr
  have hid : r.document_id ∈ dedupFirst ((stage1 qv scope index).map (·.document_id)) := by
    rw [mem_dedupFirst]
    exact List.mem_map.mpr ⟨r, hr, rfl⟩
  unfold stage2
  split
  · -- no truncation: the full sibling set of the hit documents
    rw [List.mem_flatten]
    refine ⟨chunksOf index r.document_id, List.mem_map.mpr ⟨r.document_id, hid, rfl⟩, ?_⟩
    unfold chunksOf
    rw [List.mem_filter]
    exact ⟨hidx, by simp⟩
  · -- truncated expansion: the Stage-1 hits of each document are preserved
    rw [List.mem_flatten]
    refine ⟨truncBlock index (stage1 qv scope index) cap
        ((dedupFirst ((stage1 qv scope index).map (·.document_id))).map
          (chunksOf index)).flatten.length r.document_id,
      List.mem_map.mpr ⟨r.document_id, hid, rfl⟩, ?_⟩
    unfold truncBlock
    apply List.mem_append_left
    unfold hitsOf
    rw [List.mem_filter]
    exact ⟨hr, by simp⟩

theorem stage1_subset_stage2_witness :
    (⟨0, 0, ['a'], ['t'], false, [1]⟩ : VectorRecord) ∈
        stage1 [1] Scope.all [⟨0, 0, ['a'], ['t'], false, [1]⟩] ∧
      (⟨0, 0, ['a'], ['t'], false, [1]⟩ : VectorRecord) ∈
        stage2 [⟨0, 0, ['a'], ['t'], false, [1]⟩]
          (stage1 [1] Scope.all [⟨0, 0, ['a'], ['t'], false, [1]⟩]) 0 :=
  ⟨by decide,
    stage1_subset_stage2 [1] Scope.all [⟨0, 0, ['a'], ['t'], false, [1]⟩] 0
      ⟨0, 0, ['a'], ['t'], false, [1]⟩ (by decide)⟩

/-- With zero Stage-1 hits the expanded pool is empty, so the short-circuit
branch agrees with running Stage 3 on the (empty) Stage-2 pool. -/
theorem retrieve_eq_stage3 (embed : List Char → List Int) (index : List VectorRecord)
    (query : List Char) (scope : Scope) (cap : Nat) :
    retrieve embed index query scope cap =
      stage3 (embed query) (stage2 index (stage1 (embed query) scope index) cap) := by
  unfold retrieve
  by_cases h : (stage1 (embed query) scope index).isEmpty
  · rw [if_pos h, List.isEmpty_iff.mp h]
    simp [stage2, dedupFirst, dedupFirstAux, stage3]
  · rw [if_neg h]

theorem mem_hitsOf {hits : List VectorRecord} {d : Nat} {r : VectorRecord}
    (h : r ∈ hitsOf hits d) : r ∈ hits ∧ r.document_id = d := by
  unfold hitsOf at h
  rw [List.mem_filter] at h
  exact ⟨h.1, by simpa using h.2⟩

theorem mem_chunksOf {index : List VectorRecord} {d : Nat} {r : VectorRecord}
    (h : r ∈ chunksOf index d) : r ∈ index ∧ r.document_id = d := by
  unfold chunksOf at h
  rw [List.mem_filter] at h
  exact ⟨h.1, by simpa using h.2⟩

theorem keys_stage1 {index : List VectorRecord} (qv : List Int) (scope : Scope)
    (hkeys : index.Pairwise keyDistinct) :
    (stage1 qv scope index).Pairwise keyDistinct := by
  have h1 : (index.filter (scopePred scope)).Pairwise keyDistinct :=
    hkeys.filter _
  have h2 : ((index.filter (scopePred scope)).insertionSort (rank qv)).Pairwise keyDistinct :=
    ((List.perm_insertionSort (rank qv) _).pairwise_iff
      (fun h => keyDistinct_symm h)).mpr h1
  exact List.Pairwise.sublist (List.take_sublist 3 _) h2

theorem keys_truncBlock {index hits : List VectorRecord} {cap total d : Nat}
    (hkeys : index.Pairwise keyDistinct) (hhits : hits.Pairwise keyDistinct) :
    (truncBlock index hits cap total d).Pairwise keyDistinct := by
  unfold truncBlock
  rw [List.pairwise_append]
  refine ⟨hhits.filter _, List.Pairwise.sublist (List.take_sublist _ _)
    ((hkeys.filter _).filter _), ?_⟩
  intro a ha b hb
  have hbf := List.mem_of_mem_take hb
  rw [List.mem_filter] at hbf
  have hall := hbf.2
  rw [List.all_eq_true] at hall
  have := hall a ha
  right
  simpa using this

theorem mem_truncBlock_doc {index hits : List VectorRecord} {cap total d : Nat}
    {r : VectorRecord} (h : r ∈ truncBlock index hits cap total d) :
    r.document_id = d := by
  unfold truncBlock at h
  rcases List.mem_append.mp h with h | h
  · exact (mem_hitsOf h).2
  · have h2 := List.mem_of_mem_take h
    rw [List.mem_filter] at h2
    exact (mem_chunksOf h2.1).2

theorem keys_flatten_blocks (block : Nat → List VectorRecord) :
    ∀ ids : List Nat, ids.Nodup →
      (∀ d, (block d).Pairwise keyDistinct) →
      (∀ d r, r ∈ block d → r.document_id = d) →
      ((ids.map block).flatten).Pairwise keyDistinct := by
  intro ids
  induction ids with
  | nil => intro _ _ _; simp
  | cons a l ih =>
    intro hnd hblk hdoc
    simp only [List.map_cons, List.flatten_cons]
    rw [List.pairwise_append]
    refine ⟨hblk a, ih (List.Nodup.of_cons hnd) hblk hdoc, ?_⟩
    intro x hx y hy
    rw [List.mem_flatten] at hy
    obtain ⟨lb, hlb, hylb⟩ := hy
    obtain ⟨d, hdl, rfl⟩ := List.mem_map.mp hlb
    left
    rw [hdoc a x hx, hdoc d y hylb]
    intro hc
    exact (List.nodup_cons.mp hnd).1 (hc ▸ hdl)

theorem nodup_dedupFirstAux (seen : List Nat) (l : List Nat) :
    (dedupFirstAux seen l).Nodup := by
  induction l generalizing seen with
  | nil => simp [dedupFirstAux]
  | cons a l ih =>
    unfold dedupFirstAux
    by_cases ha : a ∈ seen
    · rw [if_pos ha]; exact ih seen
    · rw [if_neg ha]
      rw [List.nodup_cons]
      refine ⟨?_, ih (a :: seen)⟩
      intro hmem
      exact (mem_dedupFirstAux.mp hmem).2 (List.mem_cons_self a seen)

theorem nodup_dedupFirst (l : List Nat) : (dedupFirst l).Nodup :=
  nodup_dedupFirstAux [] l

theorem keys_stage2 {index hits : List VectorRecord} (cap : Nat)
    (hkeys : index.Pairwise keyDistinct) (hhits : hits.Pairwise keyDistinct) :
    (stage2 index hits cap).Pairwise keyDistinct := by
  unfold stage2
  split
  · exact keys_flatten_blocks (chunksOf index) _ (nodup_dedupFirst _)
      (fun d => hkeys.filter _) (fun d r hr => (mem_chunksOf hr).2)
  · exact keys_flatten_blocks _ _ (nodup_dedupFirst _)
      (fun d => keys_truncBlock hkeys hhits)
      (fun d r hr => mem_truncBlock_doc hr)

theorem stage3_mem {qv : List Int} {pool : List VectorRecord} {r : VectorRecord}
    (h : r ∈ stage3 qv pool) : r ∈ pool := by
  unfold stage3 at h
  exact (List.mem_insertionSort (rank qv)).mp (List.mem_of_mem_take h)

theorem stage3_sorted (qv : List Int) (pool : List VectorRecord) :
    (stage3 qv pool).Pairwise (rank qv) := by
  haveI : IsTotal VectorRecord (rank qv) := ⟨rank_total qv⟩
  haveI : IsTrans VectorRecord (rank qv) := ⟨rank_trans qv⟩
  exact List.Pairwise.sublist (List.take_sublist 5 _)
    (List.sorted_insertionSort (rank qv) pool)

theorem stage3_length (qv : List Int) (pool : List VectorRecord) :
    (stage3 qv pool).length = min 5 pool.length := by
  unfold stage3
  rw [List.length_take, (List.perm_insertionSort (rank qv) pool).length_eq]

theorem stage3_topN (qv : List Int) (pool : List VectorRecord) :
    ∀ b ∈ pool, b ∉ stage3 qv pool → ∀ a ∈ stage3 qv pool, rank qv a b := by
  haveI : IsTotal VectorRecord (rank qv) := ⟨rank_total qv⟩
  haveI : IsTrans VectorRecord (rank qv) := ⟨rank_trans qv⟩
  intro b hb hbn a ha
  have hsorted : (pool.insertionSort (rank qv)).Pairwise (rank qv) :=
    List.sorted_insertionSort (rank qv) pool
  have hsplit := List.take_append_drop 5 (pool.insertionSort (rank qv))
  rw [← hsplit, List.pairwise_append] at hsorted
  have hbmem : b ∈ pool.insertionSort (rank qv) := (List.mem_insertionSort (rank qv)).mpr hb
  rw [← hsplit, List.mem_append] at hbmem
  rcases hbmem with h | h
  · exact absurd h hbn
  · exact hsorted.2.2 a ha b h

theorem keys_stage3 {qv : List Int} {pool : List VectorRecord}
    (hpool : pool.Pairwise keyDistinct) :
    (stage3 qv pool).Pairwise keyDistinct :=
  List.Pairwise.sublist (List.take_sublist 5 _)
    (((List.perm_insertionSort (rank qv) pool).pairwise_iff
      (fun h => keyDistinct_symm h)).mpr hpool)

/-- C2: on every query, the final context set produced by `retrieve` is the
top-N (N = 5) of the Stage-2 expanded pool: it equals the 5-element front of
the pool sorted by descending score with ties broken by ascending
`chunk_number` then ascending `document_id`; it is sorted by that order; it
draws only from the pool, every omitted pool element ranks no better than
every selected one, and — when the index holds no duplicate
`(document_id, chunk_number)` keys — neither does the selection. -/
theorem retrieve_final_selection (embed : List Char → List Int)
    (index : List VectorRecord) (query : List Char) (scope : Scope) (cap : Nat)
    (hkeys : index.Pairwise keyDistinct) :
    retrieve embed index query scope cap =
        ((stage2 index (stage1 (embed query) scope index) cap).insertionSort
            (rank (embed query))).take 5 ∧
      (retrieve embed index query scope cap).Pairwise (rank (embed query)) ∧
      (retrieve embed index query scope cap).length =
        min 5 (stage2 index (stage1 (embed query) scope index) cap).length ∧
      (∀ r ∈ retrieve embed index query scope cap,
        r ∈ stage2 index (stage1 (embed query) scope index) cap) ∧
      (∀ b ∈ stage2 index (stage1 (embed query) scope index) cap,
        b ∉ retrieve embed index query scope cap →
          ∀ a ∈ retrieve embed index query scope cap, rank (embed query) a b) ∧
      (retrieve embed index query scope cap).Pairwise keyDistinct := by
  rw [retrieve_eq_stage3]
  have hpool : (stage2 index (stage1 (embed query) scope index) cap).Pairwise keyDistinct :=
    keys_stage2 cap hkeys (keys_stage1 (embed query) scope hkeys)
  exact ⟨rfl, stage3_sorted _ _, stage3_length _ _,
    fun r hr => stage3_mem hr, stage3_topN _ _, keys_stage3 hpool⟩

theorem retrieve_final_selection_witness :
    ([⟨0, 0, ['a'], ['t'], false, [1]⟩,
        ⟨0, 1, ['b'], ['t'], false, [2]⟩] : List VectorRecord).Pairwise keyDistinct ∧
      (retrieve (fun _ => [1])
          [⟨0, 0, ['a'], ['t'], false, [1]⟩, ⟨0, 1, ['b'], ['t'], false, [2]⟩]
          ['q'] Scope.all 10).Pairwise keyDistinct :=
  ⟨by decide,
    (retrieve_final_selection (fun _ => [1])
        [⟨0, 0, ['a'], ['t'], false, [1]⟩, ⟨0, 1, ['b'], ['t'], false, [2]⟩]
        ['q'] Scope.all 10 (by decide)).2.2.2.2.2⟩

/-! ### Document Store and Ingestion Pipeline (§3, §4.1, §4.3) -/

/-- Modelled from the spec: a `Document` record of the Document Store —
identity, title, content fingerprint, interview flag and chunk count (§3). -/
structure Document where
  document_id : Nat
  title : List Char
  content_hash : List Char
  is_interview : Bool
  total_chunks : Nat
deriving DecidableEq

/-- Modelled from the spec: the shared persistent state — the Document Store,
the Vector Index, and the id supply for newly ingested documents. -/
structure SystemState where
  nextId : Nat
  docs : List Document
  index : List VectorRecord
deriving DecidableEq

/-- The error taxonomy relevant to the embedded pipeline (§7). -/
inductive IngestError
  | embeddingServiceError
  | vectorStoreError
deriving DecidableEq

/-- Modelled from the spec: the Content Fingerprinter (§4.1) — a stable,
collision-free hash of the raw bytes, modelled as the identity on the bytes. -/
def fingerprint (raw : List Char) : List Char := raw

/-- Embed every chunk; `none` as soon as any embedding call fails after
retries (§4.3 step 3: all must succeed before any vector is committed). -/
def embedAll (embed : List Char → Option (List Int)) :
    List (List Char) → Option (List (List Int))
  | [] => some []
  | c :: cs =>
    match embed c, embedAll embed cs with
    | some v, some vs => some (v :: vs)
    | _, _ => none

/-- Clear a document's interview flag (§4.3 step 6). -/
def clearFlag (d : Document) : Document := { d with is_interview := false }

/-- The Vector Index records for a freshly ingested document: one per chunk,
numbered 0-based, tagged with the document metadata (§4.3 step 4). -/
def mkRecords (id : Nat) (title : List Char) (flag : Bool)
    (chunks : List (List Char)) (vecs : List (List Int)) : List VectorRecord :=
  (chunks.zip vecs).enum.map fun p => ⟨id, p.1, p.2.1, title, flag, p.2.2⟩

/-- Modelled from the spec: the fresh-content path of `ingest` — chunk, embed
all chunks (aborting with `EmbeddingServiceError` if any embedding fails),
upsert the chunk vectors, record the `Document`, and clear the interview flag
on every previously-flagged document when `is_interview` is set (§4.3). -/
def ingestFresh (embed : List Char → Option (List Int)) (st : SystemState)
    (raw title : List Char) (flag : Bool) : Except IngestError Nat × SystemState :=
  match embedAll embed (chunk raw 2000 300) with
  | none => (Except.error IngestError.embeddingServiceError, st)
  | some vecs =>
    (Except.ok st.nextId,
      ⟨st.nextId + 1,
        (⟨st.nextId, title, fingerprint raw, flag, (chunk raw 2000 300).length⟩ :
            Document) ::
          (if flag then st.docs.map clearFlag else st.docs),
        st.index ++ mkRecords st.nextId title flag (chunk raw 2000 300) vecs⟩)

/-- Modelled from the spec: `ingest(raw_text, title, is_interview)` — compute
the fingerprint and short-circuit with the existing `document_id` if a live
document with the same fingerprint exists; otherwise take the fresh path
(§4.3 step 1). -/
def ingest (embed : List Char → Option (List Int)) (st : SystemState)
    (raw title : List Char) (flag : Bool) : Except IngestError Nat × SystemState :=
  match st.docs.find? (fun d => d.content_hash == fingerprint raw) with
  | some d => (Except.ok d.document_id, st)
  | none => ingestFresh embed st raw title flag

/-- Outcome of a delete call; the spec's `delete` never fails (§4.3). -/
inductive OpStatus
  | ok
  | failed (e : IngestError)
deriving DecidableEq

/-- Modelled from the spec: `delete(document_id)` — remove every vector tagged
with the id from the Vector Index, then remove the `Document` record;
idempotent, an absent id is a no-op rather than an error (§4.3). -/
def deleteDoc (st : SystemState) (id : Nat) : OpStatus × SystemState :=
  (OpStatus.ok,
    ⟨st.nextId,
      st.docs.filter (fun d => !(d.document_id == id)),
      st.index.filter (fun r => !(r.document_id == id))⟩)

theorem ingest_short (embed : List Char → Option (List Int)) (st : SystemState)
    (raw title : List Char) (flag : Bool) (d : Document)
    (hf : st.docs.find? (fun d => d.content_hash == fingerprint raw) = some d) :
    ingest embed st raw title flag = (Except.ok d.document_id, st) := by
  unfold ingest
  rw [hf]

/-- C5: ingestion is idempotent on content.  If ingesting raw bytes succeeded
with id `id` and state `st'`, ingesting the same bytes again — with any title,
flag, and even any embedding service — returns the same `document_id`, leaves
the state (and hence the Vector Index's record count) unchanged, and never
consults the embedder (no re-chunking or re-embedding). -/
theorem ingest_idempotent (embed embed2 : List Char → Option (List Int))
    (st st' : SystemState) (raw title title2 : List Char) (flag flag2 : Bool)
    (id : Nat) (h : ingest embed st raw title flag = (Except.ok id, st')) :
    ingest embed2 st' raw title2 flag2 = (Except.ok id, st') := by
  unfold ingest at h
  cases hf : st.docs.find? (fun d => d.content_hash == fingerprint raw) with
  | some d =>
    rw [hf] at h
    obtain ⟨h1, h2⟩ := Prod.mk.injEq .. ▸ h
    obtain rfl := Except.ok.inj h1
    subst h2
    exact ingest_short embed2 st raw title2 flag2 d hf
  | none =>
    rw [hf] at h
    unfold ingestFresh at h
    cases he : embedAll embed (chunk raw 2000 300) with
    | none =>
      rw [he] at h
      exact absurd (congrArg Prod.fst h) (by simp)
    | some vecs =>
      rw [he] at h
      obtain ⟨h1, h2⟩ := Prod.mk.injEq .. ▸ h
      obtain rfl := Except.ok.inj h1
      subst h2
      have hfind :
          ((⟨st.nextId, title, fingerprint raw, flag, (chunk raw 2000 300).length⟩ ::
              (if flag then st.docs.map clearFlag else st.docs) :
                List Document).find? (fun d => d.content_hash == fingerprint raw)) =
            some ⟨st.nextId, title, fingerprint raw, flag, (chunk raw 2000 300).length⟩ :=
        List.find?_cons_of_pos _ (by simp)
      exact ingest_short embed2
        ⟨st.nextId + 1,
          ⟨st.nextId, title, fingerprint raw, flag, (chunk raw 2000 300).length⟩ ::
            (if flag then st.docs.map clearFlag else st.docs),
          st.index ++ mkRecords st.nextId title flag (chunk raw 2000 300) vecs⟩
        raw title2 flag2
        ⟨st.nextId, title, fingerprint raw, flag, (chunk raw 2000 300).length⟩ hfind

theorem ingest_idempotent_witness :
    ingest (fun _ => some [1]) ⟨0, [], []⟩ ['a'] ['t'] false =
        (Except.ok 0,
          ⟨1, [⟨0, ['t'], ['a'], false, 1⟩], [⟨0, 0, ['a'], ['t'], false, [1]⟩]⟩) ∧
      ingest (fun _ => none)
          (⟨1, [⟨0, ['t'], ['a'], false, 1⟩],
            [⟨0, 0, ['a'], ['t'], false, [1]⟩]⟩ : SystemState) ['a'] ['u'] true =
        (Except.ok 0,
          ⟨1, [⟨0, ['t'], ['a'], false, 1⟩], [⟨0, 0, ['a'], ['t'], false, [1]⟩]⟩) :=
  ⟨rfl,
    ingest_idempotent (fun _ => some [1]) (fun _ => none) ⟨0, [], []⟩
      ⟨1, [⟨0, ['t'], ['a'], false, 1⟩], [⟨0, 0, ['a'], ['t'], false, [1]⟩]⟩
      ['a'] ['t'] ['u'] false true 0 rfl⟩

theorem embedAll_none (embed : List Char → Option (List Int)) :
    ∀ {cs : List (List Char)} {c : List Char}, c ∈ cs → embed c = none →
      embedAll embed cs = none := by
  intro cs
  induction cs with
  | nil => intro c hc; exact absurd hc (List.not_mem_nil c)
  | cons a l ih =>
    intro c hc hfail
    unfold embedAll
    rcases List.mem_cons.mp hc with rfl | hc
    · rw [hfail]
    · rw [ih hc hfail]
      cases embed a <;> rfl

/-- C6: if any chunk's embedding call fails during a (non-deduplicated)
ingest, the pipeline aborts with `EmbeddingServiceError` and the state is
unchanged: no vectors for the document were written to the Vector Index and no
`Document` record was created. -/
theorem ingest_embed_failure (embed : List Char → Option (List Int))
    (st : SystemState) (raw title : List Char) (flag : Bool) (c : List Char)
    (hf : st.docs.find? (fun d => d.content_hash == fingerprint raw) = none)
    (hc : c ∈ chunk raw 2000 300) (hfail : embed c = none) :
    ingest embed st raw title flag =
      (Except.error IngestError.embeddingServiceError, st) := by
  unfold ingest
  rw [hf]
  unfold ingestFresh
  rw [embedAll_none embed hc hfail]

theorem ingest_embed_failure_witness :
    (⟨0, [], []⟩ : SystemState).docs.find?
        (fun d => d.content_hash == fingerprint ['a']) = none ∧
      ['a'] ∈ chunk ['a'] 2000 300 ∧
      (fun _ : List Char => (none : Option (List Int))) ['a'] = none ∧
      ingest (fun _ => none) ⟨0, [], []⟩ ['a'] ['t'] true =
        (Except.error IngestError.embeddingServiceError, ⟨0, [], []⟩) :=
  ⟨by decide, by decide, rfl,
    ingest_embed_failure (fun _ => none) ⟨0, [], []⟩ ['a'] ['t'] true ['a']
      (by decide) (by decide) rfl⟩

/-- C7: delete completeness.  After `delete(document_id)`, a retrieval scoped
to that id returns zero chunks, the Document Store holds no record of it, and
deleting the (now absent) id again is a no-op that returns successfully. -/
theorem delete_complete (embed : List Char → List Int) (st : SystemState)
    (id : Nat) (query : List Char) (cap : Nat) :
    retrieve embed (deleteDoc st id).2.index query (Scope.doc id) cap = [] ∧
      (deleteDoc st id).2.docs.find? (fun d => d.document_id == id) = none ∧
      deleteDoc (deleteDoc st id).2 id = (OpStatus.ok, (deleteDoc st id).2) := by
  refine ⟨?_, ?_, ?_⟩
  · have hs1 : stage1 (embed query) (Scope.doc id) (deleteDoc st id).2.index = [] := by
      unfold stage1 deleteDoc
      simp only [scopePred, List.filter_filter]
      have hnil :
          (st.index.filter fun a => (a.document_id == id) && !(a.document_id == id)) =
            [] := by
        rw [List.filter_eq_nil_iff]
        intro a _
        simp
      rw [hnil]
      rfl
    unfold retrieve
    rw [hs1]
    rfl
  · unfold deleteDoc
    rw [List.find?_eq_none]
    intro d hd
    have := (List.mem_filter.mp hd).2
    simp only [Bool.not_eq_eq_eq_not, Bool.not_true] at this
    simp [this]
  · unfold deleteDoc
    simp [List.filter_filter]

/-! ### Operation sequences and the single-interview-document invariant -/

/-- The mutating operations of the pipeline surface (§4.3, §6). -/
inductive Op
  | ingestOp (raw title : List Char) (flag : Bool)
  | deleteOp (id : Nat)
  | deleteAllOp

/-- Apply one mutating operation to the shared state. -/
def applyOp (embed : List Char → Option (List Int)) (st : SystemState) :
    Op → SystemState
  | .ingestOp raw title flag => (ingest embed st raw title flag).2
  | .deleteOp id => (deleteDoc st id).2
  | .deleteAllOp => ⟨st.nextId, [], []⟩

/-- Run a sequence of mutating operations from a starting state. -/
def run (embed : List Char → Option (List Int)) :
    SystemState → List Op → SystemState
  | st, [] => st
  | st, op :: ops => run embed (applyOp embed st op) ops

/-- How many Document Store records carry `is_interview = true`. -/
def interviewCount (st : SystemState) : Nat :=
  (st.docs.filter fun d => d.is_interview).length

theorem filter_interview_clearFlag (l : List Document) :
    ((l.map clearFlag).filter fun d => d.is_interview) = [] := by
  rw [List.filter_eq_nil_iff]
  intro a ha
  obtain ⟨b, _, rfl⟩ := List.mem_map.mp ha
  simp [clearFlag]

theorem applyOp_interview (embed : List Char → Option (List Int))
    (st : SystemState) (op : Op) (h : interviewCount st ≤ 1) :
    interviewCount (applyOp embed st op) ≤ 1 := by
  cases op with
  | ingestOp raw title flag =>
    show interviewCount (ingest embed st raw title flag).2 ≤ 1
    unfold ingest
    cases hf : st.docs.find? (fun d => d.content_hash == fingerprint raw) with
    | some d => exact h
    | none =>
      unfold ingestFresh
      cases he : embedAll embed (chunk raw 2000 300) with
      | none => exact h
      | some vecs =>
        cases flag with
        | true =>
          unfold interviewCount
          simp only [List.filter_cons, filter_interview_clearFlag, if_pos]
          simp [filter_interview_clearFlag]
        | false =>
          unfold interviewCount at h ⊢
          simpa using h
  | deleteOp id =>
    show interviewCount (deleteDoc st id).2 ≤ 1
    unfold deleteDoc interviewCount
    unfold interviewCount at h
    calc ((st.docs.filter fun d => !(d.document_id == id)).filter
            fun d => d.is_interview).length
        ≤ (st.docs.filter fun d => d.is_interview).length :=
          ((List.filter_sublist st.docs).filter _).length_le
      _ ≤ 1 := h
  | deleteAllOp =>
    show interviewCount ⟨st.nextId, [], []⟩ ≤ 1
    unfold interviewCount
    simp

/-- C8: across every sequence of ingest, delete and delete-all operations, at
most one Document Store record has `is_interview = true`: ingesting with the
flag set clears the flag on every previously-flagged document, so the
invariant is preserved by every operation. -/
theorem interview_invariant (embed : List Char → Option (List Int))
    (st : SystemState) (ops : List Op) (h : interviewCount st ≤ 1) :
    interviewCount (run embed st ops) ≤ 1 := by
  induction ops generalizing st with
  | nil => exact h
  | cons op ops ih =>
    exact ih (applyOp embed st op) (applyOp_interview embed st op h)

theorem interview_invariant_witness :
    interviewCount ⟨0, [], []⟩ ≤ 1 ∧
      interviewCount
          (run (fun _ => some [1]) ⟨0, [], []⟩
            [Op.ingestOp ['a'] ['t'] true, Op.ingestOp ['b'] ['u'] true]) ≤ 1 :=
  ⟨by decide,
    interview_invariant (fun _ => some [1]) ⟨0, [], []⟩
      [Op.ingestOp ['a'] ['t'] true, Op.ingestOp ['b'] ['u'] true] (by decide)⟩

/-! ### Frontend API client (src/frontend/lib/api.ts) and the `ask` surface -/

namespace Api

/-- From src/frontend/lib/api.ts (`SourceInfo`): one citation per grounding
chunk, carrying exactly `document_id`, `title`, `chunk_number`, `text`.
Document ids are modelled as the backend's numeric ids. -/
structure SourceInfo where
  document_id : Nat
  title : List Char
  chunk_number : Nat
  text : List Char
deriving DecidableEq

/-- From src/frontend/lib/api.ts (`ChatResponse`): the `ask`/chat reply —
answer text (`response`), `status`, `sources_used`, and the `sources` list. -/
structure ChatResponse where
  response : List Char
  status : List Char
  sources_used : Bool
  sources : List SourceInfo
deriving DecidableEq

/-- From src/frontend/lib/api.ts (`Document`): one listed document. -/
structure Document where
  document_id : List Char
  title : List Char
  total_chunks : Nat
  created_at : Option (List Char)
  is_interview : Bool
deriving DecidableEq

/-- From src/frontend/lib/api.ts (`DocumentListResponse`): the list-documents
reply carries `documents`, `total`, `page`, `limit`, `has_more`, `status`. -/
structure DocumentListResponse where
  documents : List Document
  total : Nat
  page : Nat
  limit : Nat
  has_more : Bool
  status : List Char
deriving DecidableEq

/-- The query parameters the client sends with a list-documents request. -/
structure ListDocumentsParams where
  page : Nat
  limit : Nat
deriving DecidableEq

/-- From src/frontend/lib/api.ts (`listDocuments`): the client issues
`GET /api/documents` with query parameters `page` and `limit`, defaulting to
`page = 1` and `limit = 10` when the caller omits them. -/
def listDocumentsRequest (page : Nat := 1) (limit : Nat := 10) :
    ListDocumentsParams :=
  ⟨page, limit⟩

end Api

/-- Build the `SourceCitation` for a retrieved chunk: the Vector Index
metadata suffices, no secondary lookup (§3 invariants). -/
def mkCitation (r : VectorRecord) : Api.SourceInfo :=
  ⟨r.document_id, r.title, r.chunk_number, r.text⟩

/-- Modelled from the spec: the exposed `ask(message, scope)` operation — run
`retrieve`, hand the selected chunk texts (in rank order) to the generation
capability, and return the answer text together with one `SourceCitation` per
grounding chunk (§4.4 output, §6). -/
def ask (generate : List (List Char) → List Char)
    (embed : List Char → List Int) (st : SystemState) (message : List Char)
    (scope : Scope) (cap : Nat) : Api.ChatResponse :=
  { response := generate ((retrieve embed st.index message scope cap).map (·.text))
    status := "success".toList
    sources_used := !(retrieve embed st.index message scope cap).isEmpty
    sources := (retrieve embed st.index message scope cap).map mkCitation }

/-- C9: every `ask` call returns the generated answer text together with a
sources list holding exactly one `SourceCitation` per grounding chunk, each
carrying exactly the chunk's `document_id`, `title`, `chunk_number` and
`text`. -/
theorem ask_citations (generate : List (List Char) → List Char)
    (embed : List Char → List Int) (st : SystemState) (message : List Char)
    (scope : Scope) (cap : Nat) :
    (ask generate embed st message scope cap).response =
        generate ((retrieve embed st.index message scope cap).map (·.text)) ∧
      (ask generate embed st message scope cap).sources =
        (retrieve embed st.index message scope cap).map
          (fun r => ⟨r.document_id, r.title, r.chunk_number, r.text⟩) ∧
      (ask generate embed st message scope cap).sources.length =
        (retrieve embed st.index message scope cap).length ∧
      ∀ s ∈ (ask generate embed st message scope cap).sources,
        ∃ r ∈ retrieve embed st.index message scope cap,
          s = ⟨r.document_id, r.title, r.chunk_number, r.text⟩ := by
  refine ⟨rfl, rfl, by simp [ask], ?_⟩
  intro s hs
  obtain ⟨r, hr, rfl⟩ := List.mem_map.mp hs
  exact ⟨r, hr, rfl⟩

/-- C10: a `listDocuments` call that omits the pagination arguments issues the
request with `page = 1` and `limit = 10`, and the response type carries
`page`, `limit` and `status` in addition to `documents`, `total` and
`has_more`. -/
theorem listDocuments_defaults :
    Api.listDocumentsRequest = Api.ListDocumentsParams.mk 1 10 ∧
      ∀ r : Api.DocumentListResponse,
        r = ⟨r.documents, r.total, r.page, r.limit, r.has_more, r.status⟩ :=
  ⟨rfl, fun _ => rfl⟩

end VoiceBot
